import Mathlib

/-!
Verification of the slopjail sandbox core (src/src/worker.ts, src/src/utils.ts).

The development shallowly embeds the host-side capability splitter
(`extractMethods`), the guest-side reconstruction (`setGlobals` /
`injectMethods`), the host dispatch handler (`onMethod`), the guest-startup
scrubbing loop, the content-security-policy assembly and `escapeHtml`.

JavaScript values are modeled by the inductive `JSVal`: numbers as integers,
callables as tagged `func` values, the RPC proxy closures the guest builds as
`proxy` values, and objects (including arrays, flagged with `isArray` and
keyed by their canonical index strings, exactly the view `Object.entries`
takes of them) as association lists of string keys.
-/

namespace Slopjail

/-- A JavaScript value. `func id` is a host function identified by a tag;
`proxy methodId` is the guest-side RPC proxy closure capturing a capability
token; `obj isArray entries` covers both plain objects and arrays. -/
inductive JSVal where
  | str (s : String)
  | num (n : Int)
  | bool (b : Bool)
  | undef
  | null
  | func (id : Nat)
  | proxy (methodId : Int)
  | obj (isArray : Bool) (entries : List (String × JSVal))
deriving Repr

/-- The JavaScript `typeof` operator on modeled values. A proxy is a real
function in the guest, so its `typeof` is "function"; `typeof null` is
"object". -/
def typeofVal : JSVal → String
  | .str _ => "string"
  | .num _ => "number"
  | .bool _ => "boolean"
  | .undef => "undefined"
  | .func _ => "function"
  | .proxy _ => "function"
  | .null => "object"
  | .obj _ _ => "object"

/-- Property read on a JavaScript object modeled as an entry list: the value
of the first entry with the given key. -/
def getKey : List (String × JSVal) → String → Option JSVal
  | [], _ => none
  | (k', v) :: rest, k => if k' = k then some v else getKey rest k

/-- Property assignment `o[k] = v` on a JavaScript object: an existing key is
overwritten in place, a new key is appended at the end, matching JavaScript
property insertion order. -/
def setKey : List (String × JSVal) → String → JSVal → List (String × JSVal)
  | [], k, v => [(k, v)]
  | (k', v') :: rest, k, v =>
    if k' = k then (k, v) :: rest else (k', v') :: setKey rest k v

/-- Result of `extractMethods` in `createSandbox`: the constants tree, the
methods tree, and the host-side capability table `methodsById` (the mutable
array the source closes over, threaded here as explicit state). -/
structure Split where
  constants : List (String × JSVal)
  methods : List (String × JSVal)
  methodsById : List JSVal
deriving Repr

/-- The loop body of `extractMethods` (src/src/worker.ts): iterate the entries
of `source` in order, switching on `typeof value`: a function is appended to
`methodsById` and replaced by its index in the methods tree; a non-null
object (arrays included, since `typeof [] === "object"`) is split
recursively, its constants always recorded and its methods subtree recorded
only when non-empty; `null` and all other primitives go to the constants
tree. The table accumulator `tbl` is the current `methodsById`. -/
def extractGo : List (String × JSVal) → List JSVal → Split
  | [], tbl => ⟨[], [], tbl⟩
  | (k, v) :: rest, tbl =>
    match v with
    | .func f =>
      let r := extractGo rest (tbl ++ [.func f])
      ⟨r.constants, (k, .num (tbl.length : Int)) :: r.methods, r.methodsById⟩
    | .proxy t =>
      let r := extractGo rest (tbl ++ [.proxy t])
      ⟨r.constants, (k, .num (tbl.length : Int)) :: r.methods, r.methodsById⟩
    | .obj _ es =>
      let c := extractGo es tbl
      let r := extractGo rest c.methodsById
      ⟨(k, .obj false c.constants) :: r.constants,
        if c.methods.isEmpty then r.methods
          else (k, .obj false c.methods) :: r.methods,
        r.methodsById⟩
    | .null =>
      let r := extractGo rest tbl
      ⟨(k, .null) :: r.constants, r.methods, r.methodsById⟩
    | w =>
      let r := extractGo rest tbl
      ⟨(k, w) :: r.constants, r.methods, r.methodsById⟩

/-- `extractMethods(opts?.globals ?? {})` with an initially empty
`methodsById` table. -/
def extractMethods (globals : List (String × JSVal)) : Split :=
  extractGo globals []

/-- The guest-side `injectMethods(methods, dest)` (src/src/worker.ts): for
each entry of the methods tree in order, a non-null object value creates a
fresh child object, assigns it at the key (overwriting whatever the constants
tree held there) and recurses into it; a number value installs the RPC proxy
closure for that capability token; anything else is ignored. -/
def injectGo : List (String × JSVal) → List (String × JSVal) → List (String × JSVal)
  | [], dest => dest
  | (k, v) :: rest, dest =>
    match v with
    | .obj _ es => injectGo rest (setKey dest k (.obj false (injectGo es [])))
    | .null => injectGo rest dest
    | .num n => injectGo rest (setKey dest k (.proxy n))
    | _ => injectGo rest dest

/-- The final loop of `setGlobals`: each top-level entry of the merged
constants object is assigned onto `globalThis`, modeled here as a fresh
global map built up by assignment in entry order. -/
def assignAll (entries : List (String × JSVal)) : List (String × JSVal) :=
  entries.foldl (fun g kv => setKey g kv.1 kv.2) []

/-- The guest `setGlobals` handler: merge the methods tree into the constants
tree with `injectMethods`, then bind every top-level key as a global. The
result is the map of global bindings the submitted code can see. -/
def setGlobals (constants methods : List (String × JSVal)) : List (String × JSVal) :=
  assignAll (injectGo methods constants)

/-- Resolution of a non-empty key path through nested objects, as
`run('return a.b.c')` would resolve it against the installed globals:
`none` models `undefined` / an unresolvable path. -/
def lookupPath (g : List (String × JSVal)) : List String → Option JSVal
  | [] => none
  | [k] => getKey g k
  | k :: p =>
    match getKey g k with
    | some (.obj _ es) => lookupPath es p
    | _ => none

/-- Observable outcome of the host dispatch handler `onMethod`: return a
value to the channel, invoke a table entry with the given parameters, or
throw a `TypeError` (the result of calling `undefined`). -/
inductive Outcome where
  | ret (v : JSVal)
  | invoke (f : JSVal) (params : List JSVal)
  | throwTypeError
deriving Repr

/-- The host dispatch handler `onMethod({methodId, params})`
(src/src/worker.ts): when `methodId` is a number it evaluates
`methodsById[methodId](...params)` — a valid index invokes that table entry,
any other number indexes `undefined` and calling it throws a `TypeError`;
a non-number falls through the `typeof` guard and the handler returns
`undefined`. -/
def onMethod (methodsById : List JSVal) (methodId : JSVal) (params : List JSVal) :
    Outcome :=
  match methodId with
  | .num n =>
    if h : 0 ≤ n ∧ n.toNat < methodsById.length then
      Outcome.invoke (methodsById.get ⟨n.toNat, h.2⟩) params
    else
      Outcome.throwTypeError
  | _ => Outcome.ret JSVal.undef

/-- Observable session state of one sandbox: whether the host port of the
message channel has been closed and whether the backing iframe has been
removed from the document. -/
structure SessionState where
  portClosed : Bool
  iframeRemoved : Bool
deriving Repr, DecidableEq

/-- The `dispose` closure of `createSandbox`: `port.close(); iframe.remove()`.
Both platform operations are specified no-ops when the port is already closed
or the element already detached, so they are total state updates and never
throw. -/
def dispose (s : SessionState) : SessionState :=
  { s with portClosed := true, iframeRemoved := true }

/-- What a `run(code)` call does at the channel boundary: either it issues an
RPC call (`guestClient.call(method, {code})`) or it fails up front with a
disposal-specific error. -/
inductive RunAction where
  | channelCall (method : String) (code : String)
  | disposalError
deriving Repr, DecidableEq

/-- The sandbox `run` method returned by `createSandbox`:
`run(code) { return guestClient.call('run', { code }) }`. It consults no
session state — it unconditionally issues the channel call. -/
def run (_s : SessionState) (code : String) : RunAction :=
  .channelCall "run" code

/-- The list of blocked property names scrubbed at guest-runtime startup
(src/src/worker.ts). -/
def blocked : List String :=
  ["name", "navigator", "location", "requestAnimationFrame", "Worker",
    "SharedWorker"]

/-- JavaScript `Object.hasOwn(o, p)` on a modeled object. -/
def hasOwn (o : List (String × JSVal)) (p : String) : Bool :=
  (getKey o p).isSome

/-- One step of the scrub loop body on a single prototype-chain object:
`if (Object.hasOwn(proto, prop)) Object.defineProperty(proto, prop,
{ value: undefined })` — redefine the own property in place to `undefined`,
leave objects that do not own the property untouched. -/
def scrubObj (o : List (String × JSVal)) (p : String) : List (String × JSVal) :=
  if hasOwn o p then setKey o p JSVal.undef else o

/-- The inner `while (proto)` walk for one blocked property: visit every
object on the prototype chain (`globalThis`, its prototype, and so on; the
chain is modeled as the list of those objects in walk order, ending at the
implicit `null`) and scrub each one. `defineProperty` never alters the chain
itself, so the walk is a map over the chain. -/
def scrubProp (chain : List (List (String × JSVal))) (p : String) :
    List (List (String × JSVal)) :=
  chain.map (fun o => scrubObj o p)

/-- The outer `for (const prop of blocked)` loop of the startup scrub. -/
def scrubAll (chain : List (List (String × JSVal))) :
    List (List (String × JSVal)) :=
  blocked.foldl scrubProp chain

/-- The default Content-Security-Policy baseline, exactly the literal part of
the template string in `createSandbox` (src/src/worker.ts), trailing space
included. -/
def defaultContentSecurityPolicy : String :=
  "default-src 'none'; script-src 'unsafe-inline' 'unsafe-eval'; worker-src data:; "

/-- The assembled policy string: the template literal appends
`opts?.contentSecurityPolicy ?? ''` verbatim after the baseline; `none`
models an absent `contentSecurityPolicy` option. -/
def fullContentSecurityPolicy (extra : Option String) : String :=
  defaultContentSecurityPolicy ++ extra.getD ""

/-- JavaScript `String.prototype.replaceAll` for a single-character pattern:
replace every occurrence of `c` in `s` by `r`, scanning left to right. -/
def replaceAll (s : List Char) (c : Char) (r : List Char) : List Char :=
  s.flatMap fun x => if x = c then r else [x]

/-- `escapeHtml` (src/src/utils.ts): the chain of five `replaceAll` calls in
source order — `&` first, then `"`, `'`, `<`, `>`. -/
def escapeHtml (s : List Char) : List Char :=
  replaceAll
    (replaceAll
      (replaceAll
        (replaceAll
          (replaceAll s '&' ("&amp;".toList))
          '"' ("&quot;".toList))
        '\'' ("&#39;".toList))
      '<' ("&lt;".toList))
    '>' ("&gt;".toList)

/-- Single-pass character substitution described by the specification: the
five markup-special characters map to their entities, every other character
passes through unchanged. -/
def escChar (c : Char) : List Char :=
  if c = '&' then "&amp;".toList
  else if c = '"' then "&quot;".toList
  else if c = '\'' then "&#39;".toList
  else if c = '<' then "&lt;".toList
  else if c = '>' then "&gt;".toList
  else [c]

/-- C1: the claim fails on the code. For the input globals
`{a: {x: 1, f: <function>}}` the constant `1` sits at path `a.x` of the input
graph, but after the splitter's output is installed by `setGlobals`, path
`a.x` resolves to `undefined`: `injectMethods` assigns a *fresh* child object
at every methods-tree key, discarding the nested constants object `{x: 1}`
and leaving only the proxy for `f`. The repository's intended behavior
(its documentation: objects traversed recursively, primitives passed
through) is the claim's; the code drops the sibling. -/
theorem constant_sibling_of_callable_lost :
    lookupPath [("a", JSVal.obj false [("x", .num 1), ("f", .func 0)])]
        ["a", "x"] = some (.num 1)
    ∧ (let r := extractMethods
          [("a", JSVal.obj false [("x", .num 1), ("f", .func 0)])]
       lookupPath (setGlobals r.constants r.methods) ["a", "x"] = none) := by
  refine ⟨rfl, ?_⟩
  simp [extractMethods, extractGo, setGlobals, injectGo, assignAll, setKey,
    lookupPath, getKey]

/-- C2: the claim fails on the code. For the input globals `{arr: [f]}`
(the array carrying one function, viewed by `Object.entries` as key "0"),
`extractMethods` recurses into the array because `typeof [] === "object"`:
the embedded function receives capability token 0 and appears in the methods
tree, and the constants tree holds a fresh *plain object* (here empty), not
the array as-is. -/
theorem array_traversed_and_function_tokenized :
    (extractMethods [("arr", JSVal.obj true [("0", .func 7)])]).methodsById
        = [.func 7]
    ∧ (extractMethods [("arr", JSVal.obj true [("0", .func 7)])]).methods
        = [("arr", .obj false [("0", .num 0)])]
    ∧ (extractMethods [("arr", JSVal.obj true [("0", .func 7)])]).constants
        = [("arr", .obj false [])] := by
  refine ⟨?_, ?_, ?_⟩ <;> simp [extractMethods, extractGo]

/-- C4: the claim fails on the code. `dispose` only closes the port and
removes the iframe; `run` consults no disposed flag and unconditionally
issues the channel call `guestClient.call('run', ...)`. So a `run` after
`dispose` still performs channel traffic, and no execution path of `run`
produces a disposal-specific error — although the repository's own test
suite expects `run` after `dispose` to reject with a disposal error. -/
theorem run_after_dispose_still_sends_channel_call :
    run (dispose ⟨false, false⟩) "return 1" = .channelCall "run" "return 1"
    ∧ ∀ (s : SessionState) (code : String), run s code ≠ .disposalError :=
  ⟨rfl, fun _ _ h => RunAction.noConfusion h⟩

/-- C7: `dispose()` is idempotent — a second call leaves the session state
(port closed, iframe removed) exactly as the first call left it, and the
model is a total function, so no error is raised. -/
theorem dispose_idempotent (s : SessionState) :
    dispose (dispose s) = dispose s ∧ dispose s = ⟨true, true⟩ :=
  ⟨rfl, rfl⟩

/-- C9: for every caller-supplied extra directive string, the assembled
policy is exactly the fixed default-deny baseline followed by the extra
string verbatim — the assembler itself performs no escaping. -/
theorem full_csp_is_baseline_plus_extra_verbatim (extra : String) :
    fullContentSecurityPolicy (some extra)
      = "default-src 'none'; script-src 'unsafe-inline' 'unsafe-eval'; worker-src data:; "
          ++ extra :=
  rfl

/-- A non-number `methodId` falls through the `typeof` guard of `onMethod`
and the handler returns `undefined`. Shared helper for the dispatch
theorems. -/
theorem onMethod_ret_undef_of_not_number (tbl : List JSVal) (v : JSVal)
    (ps : List JSVal) (h : typeofVal v ≠ "number") :
    onMethod tbl v ps = Outcome.ret JSVal.undef := by
  cases v <;> first | rfl | exact absurd rfl h

/-- C10: a `methodId` that is not a number falls through the
`typeof methodId === 'number'` guard: the handler invokes no capability-table
function and returns `undefined`. -/
theorem non_number_methodId_is_silent_noop (tbl : List JSVal) (v : JSVal)
    (ps : List JSVal) (h : typeofVal v ≠ "number") :
    onMethod tbl v ps = Outcome.ret JSVal.undef
    ∧ ∀ (f : JSVal) (qs : List JSVal), onMethod tbl v ps ≠ .invoke f qs := by
  have hret := onMethod_ret_undef_of_not_number tbl v ps h
  exact ⟨hret, fun f qs hc => by rw [hret] at hc; exact Outcome.noConfusion hc⟩

/-- C10 witness: dispatching `null` against a one-entry table returns
`undefined`. -/
theorem non_number_methodId_is_silent_noop_witness :
    onMethod [.func 3] .null [] = Outcome.ret JSVal.undef :=
  (non_number_methodId_is_silent_noop [.func 3] .null [] (by decide)).1

/-- C3 counterexample: the claim as stated is false for a numeric
out-of-range token — dispatching token 0 against the empty capability table
throws a `TypeError` (the code calls `methodsById[0]`, which is `undefined`)
instead of silently yielding "no value". -/
theorem out_of_range_token_throws :
    onMethod [] (.num 0) [] = Outcome.throwTypeError
    ∧ onMethod [] (.num 0) [] ≠ Outcome.ret JSVal.undef := by
  have h : onMethod [] (.num 0) [] = Outcome.throwTypeError := by
    simp [onMethod]
  exact ⟨h, fun hc => by rw [h] at hc; exact Outcome.noConfusion hc⟩

/-- C3 amended: a token value that is not a number is a silent no-op success
yielding "no value" (`undefined`); a *numeric* token that is not a valid
index into the capability table makes the handler throw a `TypeError`
(calling the `undefined` that the lookup yields) — an error, not a no-op. -/
theorem invalid_token_dispatch (tbl : List JSVal) (ps : List JSVal) :
    (∀ v : JSVal, typeofVal v ≠ "number" → onMethod tbl v ps = Outcome.ret JSVal.undef)
    ∧ ∀ n : Int, ¬(0 ≤ n ∧ n.toNat < tbl.length) →
        onMethod tbl (.num n) ps = .throwTypeError := by
  constructor
  · intro v hv
    exact onMethod_ret_undef_of_not_number tbl v ps hv
  · intro n hn
    simp only [onMethod, dif_neg hn]

/-- C3 amended witness: a string token returns `undefined`; the numeric
token 5 against a one-entry table throws a `TypeError`. -/
theorem invalid_token_dispatch_witness :
    onMethod [.func 1] (.str "x") [] = Outcome.ret JSVal.undef
    ∧ onMethod [.func 1] (.num 5) [] = Outcome.throwTypeError :=
  ⟨(invalid_token_dispatch [.func 1] []).1 (.str "x") (by decide),
    (invalid_token_dispatch [.func 1] []).2 5 (by decide)⟩

theorem getKey_setKey_self (o : List (String × JSVal)) (k : String) (v : JSVal) :
    getKey (setKey o k v) k = some v := by
  induction o with
  | nil => simp [setKey, getKey]
  | cons kv rest ih =>
    obtain ⟨k', v'⟩ := kv
    by_cases h : k' = k
    · simp [setKey, h, getKey]
    · simp [setKey, h, getKey, ih]

theorem getKey_setKey_ne (o : List (String × JSVal)) (k k' : String) (v : JSVal)
    (h : k ≠ k') : getKey (setKey o k v) k' = getKey o k' := by
  induction o with
  | nil => simp [setKey, getKey, h]
  | cons kv rest ih =>
    obtain ⟨a, b⟩ := kv
    by_cases ha : a = k
    · subst ha
      simp [setKey, getKey, h]
    · simp [setKey, ha, getKey, ih]

theorem getKey_scrubObj_ne (o : List (String × JSVal)) (q p : String)
    (h : q ≠ p) : getKey (scrubObj o q) p = getKey o p := by
  unfold scrubObj
  split
  · exact getKey_setKey_ne o q p JSVal.undef h
  · rfl

theorem getKey_scrubObj_self (o : List (String × JSVal)) (p : String) :
    getKey (scrubObj o p) p
      = if hasOwn o p then some JSVal.undef else getKey o p := by
  unfold scrubObj
  split <;> rename_i h <;> simp [h, getKey_setKey_self]

theorem hasOwn_scrubObj (o : List (String × JSVal)) (q p : String) :
    hasOwn (scrubObj o q) p = hasOwn o p := by
  unfold scrubObj
  split
  · rename_i hq
    by_cases h : q = p
    · subst h
      unfold hasOwn
      rw [getKey_setKey_self]
      unfold hasOwn at hq
      simp [hq]
    · unfold hasOwn
      rw [getKey_setKey_ne o q p JSVal.undef h]
  · rfl

/-- The effect of the whole blocked-names loop on a single object of the
prototype chain (the per-object view of the scrub: the two loops commute
because `defineProperty` on one chain object does not affect the others). -/
def objScrubAll (o : List (String × JSVal)) : List (String × JSVal) :=
  blocked.foldl scrubObj o

theorem foldl_scrubObj_not_mem (l : List String) (o : List (String × JSVal))
    (p : String) (h : p ∉ l) :
    getKey (l.foldl scrubObj o) p = getKey o p := by
  induction l generalizing o with
  | nil => rfl
  | cons q rest ih =>
    have hq : q ≠ p := fun hqp => h (hqp ▸ List.mem_cons_self q rest)
    have hrest : p ∉ rest := fun hm => h (List.mem_cons_of_mem q hm)
    simp only [List.foldl_cons]
    rw [ih (scrubObj o q) hrest, getKey_scrubObj_ne o q p hq]

theorem foldl_scrubObj_mem (l : List String) (o : List (String × JSVal))
    (p : String) (h : p ∈ l) :
    getKey (l.foldl scrubObj o) p
      = if hasOwn o p then some JSVal.undef else getKey o p := by
  induction l generalizing o with
  | nil => cases h
  | cons q rest ih =>
    simp only [List.foldl_cons]
    by_cases hp : p ∈ rest
    · rw [ih (scrubObj o q) hp, hasOwn_scrubObj]
      by_cases ho : hasOwn o p
      · simp [ho]
      · simp only [ho, if_false]
        by_cases hq : q = p
        · subst hq
          rw [getKey_scrubObj_self]
          simp [ho]
        · exact getKey_scrubObj_ne o q p hq
    · have hq : q = p := by
        rcases List.mem_cons.mp h with h' | h'
        · exact h'.symm
        · exact absurd h' hp
      subst hq
      rw [foldl_scrubObj_not_mem rest (scrubObj o q) q hp,
        getKey_scrubObj_self]

theorem scrubAll_eq_map (l : List String) (chain : List (List (String × JSVal))) :
    l.foldl scrubProp chain = chain.map (fun o => l.foldl scrubObj o) := by
  induction l generalizing chain with
  | nil => simp
  | cons q rest ih =>
    simp only [List.foldl_cons]
    rw [ih (scrubProp chain q)]
    simp [scrubProp, List.map_map, Function.comp]

/-- A property that is not owned has no value: `hasOwn` is exactly
definedness of `getKey`. -/
theorem getKey_eq_none_of_not_hasOwn (o : List (String × JSVal)) (p : String)
    (h : hasOwn o p = false) : getKey o p = none := by
  unfold hasOwn at h
  exact Option.not_isSome_iff_eq_none.mp (by simp [h])

/-- C6: the startup scrub walks the whole prototype chain once per blocked
name and leaves, on every object of the chain, the blocked name either
absent (as before) or owned with the inert value `undefined`; afterwards no
own-property read of a blocked name anywhere on the chain yields the
original value. The chain-level loop equals the per-object scrub applied to
every chain member. -/
theorem blocked_names_scrubbed_to_undefined (chain : List (List (String × JSVal))) :
    scrubAll chain = chain.map objScrubAll
    ∧ ∀ (p : String) (o : List (String × JSVal)), p ∈ blocked →
        getKey (objScrubAll o) p = if hasOwn o p then some JSVal.undef else none := by
  constructor
  · exact scrubAll_eq_map blocked chain
  · intro p o hp
    rw [objScrubAll, foldl_scrubObj_mem blocked o p hp]
    by_cases ho : hasOwn o p
    · simp [ho]
    · simp only [Bool.not_eq_true] at ho
      simp [ho, getKey_eq_none_of_not_hasOwn o p ho]

/-- C6 witness: on a concrete two-object chain, the scrub redefines the
owned `navigator` property of the first object to `undefined`. -/
theorem blocked_names_scrubbed_to_undefined_witness :
    getKey (objScrubAll [("navigator", .str "ua"), ("x", .num 5)]) "navigator"
      = some JSVal.undef := by
  have h := (blocked_names_scrubbed_to_undefined []).2 "navigator"
    [("navigator", .str "ua"), ("x", .num 5)] (by decide)
  rw [h]
  simp [hasOwn, getKey]

theorem replaceAll_append (x y : List Char) (c : Char) (r : List Char) :
    replaceAll (x ++ y) c r = replaceAll x c r ++ replaceAll y c r := by
  simp [replaceAll]

theorem escapeHtml_append (x y : List Char) :
    escapeHtml (x ++ y) = escapeHtml x ++ escapeHtml y := by
  simp [escapeHtml, replaceAll_append]

theorem escapeHtml_singleton (c : Char) : escapeHtml [c] = escChar c := by
  by_cases h1 : c = '&'
  · subst h1; rfl
  by_cases h2 : c = '"'
  · subst h2; rfl
  by_cases h3 : c = '\''
  · subst h3; rfl
  by_cases h4 : c = '<'
  · subst h4; rfl
  by_cases h5 : c = '>'
  · subst h5; rfl
  simp [escapeHtml, replaceAll, escChar, h1, h2, h3, h4, h5]

theorem escapeHtml_eq_flatMap (s : List Char) :
    escapeHtml s = s.flatMap escChar := by
  induction s with
  | nil => rfl
  | cons c cs ih =>
    have : (c :: cs) = [c] ++ cs := rfl
    rw [this, escapeHtml_append, escapeHtml_singleton, ih,
      List.flatMap_append]
    simp [List.flatMap_cons]

theorem mem_escChar_not_special (x c : Char) (hc : c ∈ escChar x) :
    c ≠ '"' ∧ c ≠ '\'' ∧ c ≠ '<' ∧ c ≠ '>' := by
  by_cases h1 : x = '&'
  · subst h1; simp [escChar] at hc; rcases hc with h | h | h | h | h <;> subst h <;> decide
  by_cases h2 : x = '"'
  · subst h2
    simp [escChar] at hc
    rcases hc with h | h | h | h | h | h <;> subst h <;> decide
  by_cases h3 : x = '\''
  · subst h3
    simp [escChar] at hc
    rcases hc with h | h | h | h | h <;> subst h <;> decide
  by_cases h4 : x = '<'
  · subst h4
    simp [escChar] at hc
    rcases hc with h | h | h | h <;> subst h <;> decide
  by_cases h5 : x = '>'
  · subst h5
    simp [escChar] at hc
    rcases hc with h | h | h | h <;> subst h <;> decide
  · simp [escChar, h1, h2, h3, h4, h5] at hc
    subst hc
    exact ⟨h2, h3, h4, h5⟩

/-- C8: `escapeHtml` is total (a Lean function) and equals the single-pass
substitution that maps the five markup-special characters to their entities
(`&` handled first, so the `&` introduced by the later entities is never
re-expanded; every other character passes through unchanged). Consequently
no raw `"`, `'`, `<` or `>` occurs in any output. -/
theorem escapeHtml_spec (s : List Char) :
    escapeHtml s = s.flatMap escChar
    ∧ ∀ c ∈ escapeHtml s, c ≠ '"' ∧ c ≠ '\'' ∧ c ≠ '<' ∧ c ≠ '>' := by
  refine ⟨escapeHtml_eq_flatMap s, ?_⟩
  intro c hc
  rw [escapeHtml_eq_flatMap s] at hc
  obtain ⟨x, _, hcx⟩ := List.mem_flatMap.mp hc
  exact mem_escChar_not_special x c hcx

/-- C8 witness: on the concrete input `<a>` the output is `&lt;a&gt;` and
contains no raw `<`. -/
theorem escapeHtml_spec_witness :
    escapeHtml ("<a>".toList) = ("&lt;a&gt;".toList)
    ∧ '<' ∉ escapeHtml ("<a>".toList) := by
  constructor
  · rw [(escapeHtml_spec ("<a>".toList)).1]
    rfl
  · intro hmem
    exact ((escapeHtml_spec ("<a>".toList)).2 '<' hmem).2.2.1 rfl

/-- The function-typed values of a value graph in the splitter's traversal
order: entry order, depth-first into objects (exactly the order in which
`extractMethods` pushes onto `methodsById`). -/
def funcsOfE : List (String × JSVal) → List JSVal
  | [] => []
  | (_, v) :: rest =>
    match v with
    | .func f => JSVal.func f :: funcsOfE rest
    | .proxy t => JSVal.proxy t :: funcsOfE rest
    | .obj _ es => funcsOfE es ++ funcsOfE rest
    | _ => funcsOfE rest

/-- The capability tokens stored in a methods tree, in traversal order. -/
def tokensOfE : List (String × JSVal) → List Int
  | [] => []
  | (_, v) :: rest =>
    match v with
    | .num n => n :: tokensOfE rest
    | .obj _ es => tokensOfE es ++ tokensOfE rest
    | _ => tokensOfE rest

mutual

/-- No function-typed value (neither a host function nor a proxy closure)
occurs anywhere in the value. -/
def noCallableV : JSVal → Bool
  | .func _ => false
  | .proxy _ => false
  | .obj _ es => noCallableE es
  | _ => true

/-- `noCallableV` on every value of an entry list. -/
def noCallableE : List (String × JSVal) → Bool
  | [] => true
  | kv :: rest => noCallableV kv.2 && noCallableE rest

end

mutual

/-- No host function value occurs anywhere in the value (proxy closures are
permitted — they are what the guest is allowed to hold). -/
def noHostFuncV : JSVal → Bool
  | .func _ => false
  | .obj _ es => noHostFuncE es
  | _ => true

/-- `noHostFuncV` on every value of an entry list. -/
def noHostFuncE : List (String × JSVal) → Bool
  | [] => true
  | kv :: rest => noHostFuncV kv.2 && noHostFuncE rest

end

theorem range'_split (s a b : Nat) :
    List.range' s (a + b) = List.range' s a ++ List.range' (s + a) b := by
  have h := List.range'_append s a b 1
  simp only [one_mul] at h
  rw [Nat.add_comm a b]
  exact h.symm

/-- The central invariant of the capability splitter, generalized over the
table accumulator: the resulting table is the incoming table extended by the
graph's function values in traversal order; the tokens stored in the methods
tree are exactly the consecutive indices of those new table entries, in the
same order; and neither output tree contains any function-typed value. -/
theorem extractGo_spec (l : List (String × JSVal)) (tbl : List JSVal) :
    (extractGo l tbl).methodsById = tbl ++ funcsOfE l
    ∧ tokensOfE (extractGo l tbl).methods
        = (List.range' tbl.length (funcsOfE l).length).map Int.ofNat
    ∧ noCallableE (extractGo l tbl).constants = true
    ∧ noCallableE (extractGo l tbl).methods = true
    ∧ noHostFuncE (extractGo l tbl).constants = true := by
  induction l, tbl using extractGo.induct with
  | case1 tbl =>
    simp [extractGo, funcsOfE, tokensOfE, noCallableE, noHostFuncE]
  | case2 k rest tbl f ih =>
    obtain ⟨ih1, ih2, ih3, ih4, ih5⟩ := ih
    refine ⟨?_, ?_, ?_, ?_, ?_⟩
    · simp [extractGo, funcsOfE, ih1]
    · simp only [extractGo, tokensOfE, funcsOfE, ih2, List.length_append,
        List.length_cons, List.length_nil, List.range'_succ, List.map_cons]
      rfl
    · simpa [extractGo] using ih3
    · simp [extractGo, noCallableE, noCallableV, ih4]
    · simpa [extractGo] using ih5
  | case3 k rest tbl t ih =>
    obtain ⟨ih1, ih2, ih3, ih4, ih5⟩ := ih
    refine ⟨?_, ?_, ?_, ?_, ?_⟩
    · simp [extractGo, funcsOfE, ih1]
    · simp only [extractGo, tokensOfE, funcsOfE, ih2, List.length_append,
        List.length_cons, List.length_nil, List.range'_succ, List.map_cons]
      rfl
    · simpa [extractGo] using ih3
    · simp [extractGo, noCallableE, noCallableV, ih4]
    · simpa [extractGo] using ih5
  | case4 k rest tbl isArray es c ihc ih =>
    simp only [show c = extractGo es tbl from rfl] at ih
    obtain ⟨ihc1, ihc2, ihc3, ihc4, ihc5⟩ := ihc
    obtain ⟨ih1, ih2, ih3, ih4, ih5⟩ := ih
    have hlen : (extractGo es tbl).methodsById.length
        = tbl.length + (funcsOfE es).length := by
      rw [ihc1, List.length_append]
    have hunf : extractGo ((k, JSVal.obj isArray es) :: rest) tbl
        = ⟨(k, .obj false (extractGo es tbl).constants)
              :: (extractGo rest (extractGo es tbl).methodsById).constants,
            if (extractGo es tbl).methods.isEmpty
              then (extractGo rest (extractGo es tbl).methodsById).methods
              else (k, .obj false (extractGo es tbl).methods)
                :: (extractGo rest (extractGo es tbl).methodsById).methods,
            (extractGo rest (extractGo es tbl).methodsById).methodsById⟩ := by
      simp [extractGo]
    have hfuncs : funcsOfE ((k, JSVal.obj isArray es) :: rest)
        = funcsOfE es ++ funcsOfE rest := by
      simp [funcsOfE]
    refine ⟨?_, ?_, ?_, ?_, ?_⟩
    · rw [hunf, hfuncs]
      show (extractGo rest (extractGo es tbl).methodsById).methodsById = _
      rw [ih1, ihc1, List.append_assoc]
    · rw [hunf, hfuncs]
      by_cases hemp : (extractGo es tbl).methods.isEmpty
      · have hm : (extractGo es tbl).methods = [] := List.isEmpty_iff.mp hemp
        have hz : (funcsOfE es).length = 0 := by
          have h2 := ihc2
          rw [hm] at h2
          simp only [tokensOfE] at h2
          exact List.range'_eq_nil.mp (List.map_eq_nil_iff.mp h2.symm)
        simp only [if_pos hemp, ih2, hlen, hz, List.length_append,
          Nat.add_zero, Nat.zero_add]
      · rw [if_neg hemp]
        have ht : tokensOfE ((k, JSVal.obj false (extractGo es tbl).methods)
            :: (extractGo rest (extractGo es tbl).methodsById).methods)
            = tokensOfE (extractGo es tbl).methods
              ++ tokensOfE (extractGo rest (extractGo es tbl).methodsById).methods := by
          simp [tokensOfE]
        rw [ht, ihc2, ih2, hlen, List.length_append,
          range'_split tbl.length (funcsOfE es).length (funcsOfE rest).length,
          List.map_append]
    · rw [hunf]
      simp only [noCallableE, noCallableV, Bool.and_eq_true]
      exact ⟨ihc3, ih3⟩
    · rw [hunf]
      by_cases hemp : (extractGo es tbl).methods.isEmpty
      · rw [if_pos hemp]
        exact ih4
      · rw [if_neg hemp]
        simp only [noCallableE, noCallableV, Bool.and_eq_true]
        exact ⟨ihc4, ih4⟩
    · rw [hunf]
      simp only [noHostFuncE, noHostFuncV, Bool.and_eq_true]
      exact ⟨ihc5, ih5⟩
  | case5 k rest tbl ih =>
    obtain ⟨ih1, ih2, ih3, ih4, ih5⟩ := ih
    refine ⟨?_, ?_, ?_, ?_, ?_⟩
    · simp [extractGo, funcsOfE, ih1]
    · simp [extractGo, funcsOfE, ih2]
    · simp [extractGo, noCallableE, noCallableV, ih3]
    · simpa [extractGo] using ih4
    · simp [extractGo, noHostFuncE, noHostFuncV, ih5]
  | case6 k rest tbl w hf hp ho hn ih =>
    obtain ⟨ih1, ih2, ih3, ih4, ih5⟩ := ih
    cases w with
    | func f => exact absurd rfl (hf f)
    | proxy t => exact absurd rfl (hp t)
    | obj b es => exact absurd rfl (ho b es)
    | null => exact absurd rfl hn
    | str s =>
      refine ⟨?_, ?_, ?_, ?_, ?_⟩
      · simp [extractGo, funcsOfE, ih1]
      · simp [extractGo, funcsOfE, tokensOfE, ih2]
      · simp [extractGo, noCallableE, noCallableV, ih3]
      · simpa [extractGo] using ih4
      · simp [extractGo, noHostFuncE, noHostFuncV, ih5]
    | num n =>
      refine ⟨?_, ?_, ?_, ?_, ?_⟩
      · simp [extractGo, funcsOfE, ih1]
      · simp [extractGo, funcsOfE, tokensOfE, ih2]
      · simp [extractGo, noCallableE, noCallableV, ih3]
      · simpa [extractGo] using ih4
      · simp [extractGo, noHostFuncE, noHostFuncV, ih5]
    | bool b =>
      refine ⟨?_, ?_, ?_, ?_, ?_⟩
      · simp [extractGo, funcsOfE, ih1]
      · simp [extractGo, funcsOfE, tokensOfE, ih2]
      · simp [extractGo, noCallableE, noCallableV, ih3]
      · simpa [extractGo] using ih4
      · simp [extractGo, noHostFuncE, noHostFuncV, ih5]
    | undef =>
      refine ⟨?_, ?_, ?_, ?_, ?_⟩
      · simp [extractGo, funcsOfE, ih1]
      · simp [extractGo, funcsOfE, tokensOfE, ih2]
      · simp [extractGo, noCallableE, noCallableV, ih3]
      · simpa [extractGo] using ih4
      · simp [extractGo, noHostFuncE, noHostFuncV, ih5]

theorem noHostFuncE_setKey (dest : List (String × JSVal)) (k : String)
    (v : JSVal) (hd : noHostFuncE dest = true) (hv : noHostFuncV v = true) :
    noHostFuncE (setKey dest k v) = true := by
  induction dest with
  | nil => simp [setKey, noHostFuncE, hv]
  | cons kv rest ih =>
    obtain ⟨a, b⟩ := kv
    simp only [noHostFuncE, Bool.and_eq_true] at hd
    by_cases h : a = k
    · simp [setKey, h, noHostFuncE, hv, hd.2]
    · simp [setKey, h, noHostFuncE, hd.1, ih hd.2]

/-- Merging a methods tree into a function-free destination produces a
function-free result: `injectMethods` only ever writes fresh child objects
and proxy closures. -/
theorem injectGo_noHostFunc (ms dest : List (String × JSVal))
    (hd : noHostFuncE dest = true) : noHostFuncE (injectGo ms dest) = true := by
  revert hd
  induction ms, dest using injectGo.induct with
  | case1 dest =>
    intro hd
    simpa [injectGo] using hd
  | case2 k rest dest b es ih1 ih2 =>
    intro hd
    have h1 : noHostFuncE (injectGo es []) = true := ih1 rfl
    have h2 := ih2 (noHostFuncE_setKey dest k _ hd
      (by simpa [noHostFuncV] using h1))
    simpa [injectGo] using h2
  | case3 k rest dest ih =>
    intro hd
    simpa [injectGo] using ih hd
  | case4 k rest dest n ih =>
    intro hd
    have h2 := ih (noHostFuncE_setKey dest k (.proxy n) hd rfl)
    simpa [injectGo] using h2
  | case5 k w rest dest h1 h2 h3 ih =>
    intro hd
    have hstep : injectGo ((k, w) :: rest) dest = injectGo rest dest := by
      cases w with
      | obj b es => exact absurd rfl (h1 b es)
      | null => exact absurd rfl h2
      | num n => exact absurd rfl (h3 n)
      | str s => simp [injectGo]
      | bool b => simp [injectGo]
      | undef => simp [injectGo]
      | func f => simp [injectGo]
      | proxy t => simp [injectGo]
    rw [hstep]
    exact ih hd

theorem foldl_setKey_noHostFunc (l : List (String × JSVal)) :
    ∀ acc, noHostFuncE l = true → noHostFuncE acc = true →
      noHostFuncE (l.foldl (fun g kv => setKey g kv.1 kv.2) acc) = true := by
  induction l with
  | nil =>
    intro acc _ ha
    simpa using ha
  | cons kv rest ih =>
    intro acc hl ha
    simp only [noHostFuncE, Bool.and_eq_true] at hl
    simp only [List.foldl_cons]
    exact ih _ hl.2 (noHostFuncE_setKey acc kv.1 kv.2 ha hl.1)

theorem onMethod_invoke_of_lt (tbl : List JSVal) (i : Nat) (ps : List JSVal)
    (h : i < tbl.length) :
    onMethod tbl (.num (Int.ofNat i)) ps = .invoke (tbl.get ⟨i, h⟩) ps := by
  have hc : 0 ≤ (Int.ofNat i) ∧ (Int.ofNat i).toNat < tbl.length := by
    exact ⟨Int.ofNat_nonneg i, by simpa using h⟩
  simp only [onMethod, dif_pos hc]
  have hfin : (⟨(Int.ofNat i).toNat, hc.2⟩ : Fin tbl.length) = ⟨i, h⟩ := by
    apply Fin.ext
    simp
  rw [hfin]

/-- C5: splitting assigns capability tokens 0, 1, ..., n−1 exactly in
traversal order — the table is the graph's function values in traversal
order and the tokens in the methods tree are the consecutive indices
0 … n−1 in that same order; dispatching `onMethod` with a token i invokes
exactly the table entry captured at position i at splitting time; and the
guest receives no function value: both transmitted trees are function-free,
and the installed global bindings contain proxies (never host functions) at
the callable positions. -/
theorem capability_token_assignment (g : List (String × JSVal)) :
    (extractMethods g).methodsById = funcsOfE g
    ∧ tokensOfE (extractMethods g).methods
        = (List.range (extractMethods g).methodsById.length).map Int.ofNat
    ∧ noCallableE (extractMethods g).constants = true
    ∧ noCallableE (extractMethods g).methods = true
    ∧ noHostFuncE (setGlobals (extractMethods g).constants
        (extractMethods g).methods) = true
    ∧ ∀ (i : Nat) (ps : List JSVal)
        (h : i < (extractMethods g).methodsById.length),
        onMethod (extractMethods g).methodsById (.num (Int.ofNat i)) ps
          = .invoke ((extractMethods g).methodsById.get ⟨i, h⟩) ps := by
  obtain ⟨h1, h2, h3, h4, h5⟩ := extractGo_spec g []
  have hev : (extractMethods g).methodsById = funcsOfE g := by
    simpa [extractMethods] using h1
  refine ⟨hev, ?_, ?_, ?_, ?_, ?_⟩
  · have hl : (extractMethods g).methodsById.length = (funcsOfE g).length := by
      rw [hev]
    rw [hl]
    have h2' := h2
    simp only [List.length_nil] at h2'
    rw [List.range_eq_range']
    simpa [extractMethods] using h2'
  · simpa [extractMethods] using h3
  · simpa [extractMethods] using h4
  · have hc : noHostFuncE (extractMethods g).constants = true := by
      simpa [extractMethods] using h5
    have hi := injectGo_noHostFunc (extractMethods g).methods
      (extractMethods g).constants hc
    simp only [setGlobals, assignAll]
    exact foldl_setKey_noHostFunc _ [] hi rfl
  · intro i ps h
    exact onMethod_invoke_of_lt (extractMethods g).methodsById i ps h

/-- C5 witness: for the one-function graph, token 0 dispatches to that very
function. -/
theorem capability_token_assignment_witness :
    onMethod (extractMethods [("f", JSVal.func 9)]).methodsById
      (.num (Int.ofNat 0)) [] = .invoke (JSVal.func 9) [] := by
  have h := (capability_token_assignment [("f", JSVal.func 9)]).2.2.2.2.2 0 []
  have htbl : (extractMethods [("f", JSVal.func 9)]).methodsById
      = [JSVal.func 9] := by
    simp [extractMethods, extractGo]
  rw [htbl] at h ⊢
  exact h (by decide)

end Slopjail
